import Mathlib

/-!
Verification development for the motion-sounds add-on
(`vse_event_sounds_panel.py`): a shallow embedding of the
event-detection-and-placement engine, with theorems checking the
natural-language specification against the code.

Floating-point values of the source are modelled as rationals; Python
integers as `Int`/`Nat`.  Host objects (scene, bones, Resolve media pool)
appear only through the data the engine reads from them.
-/

namespace MotionSounds

/-! ### Parameter mapper: speed normalization (source lines 813–817, 854–863)

`max_speed = max(speeds) if speeds else 1.0`
`min_speed = min(speeds) if speeds else 0.0`
`speed_range = max_speed - min_speed if max_speed > min_speed else 1.0`
and per event
`normalized_speed = (crossing_speed - min_speed) / speed_range if speed_range > 0 else 1.0`
`base_volume = volume_slowest + (normalized_speed * (volume_fastest - volume_slowest))`.
-/

def maxSpeedOf (speeds : List ℚ) : ℚ :=
  match speeds with
  | [] => 1
  | x :: xs => xs.foldl max x

def minSpeedOf (speeds : List ℚ) : ℚ :=
  match speeds with
  | [] => 0
  | x :: xs => xs.foldl min x

def speedRangeOf (speeds : List ℚ) : ℚ :=
  if maxSpeedOf speeds > minSpeedOf speeds then maxSpeedOf speeds - minSpeedOf speeds else 1

def normalizedSpeed (crossing_speed min_speed speed_range : ℚ) : ℚ :=
  if speed_range > 0 then (crossing_speed - min_speed) / speed_range else 1

def baseVolumeOf (volume_slowest volume_fastest normalized_speed : ℚ) : ℚ :=
  volume_slowest + normalized_speed * (volume_fastest - volume_slowest)

/-! ### Volume randomness (source lines 225–237, `get_random_volume`)

`random.uniform(a, b)` is modelled as `a + (b - a) * u` for a unit sample
`u ∈ [0, 1]` drawn from the shared random source. -/

def get_random_volume (base_volume randomness u : ℚ) : ℚ :=
  if randomness ≤ 0 then base_volume
  else
    let min_volume := base_volume * (1 - randomness)
    min_volume + (base_volume - min_volume) * u

/-! ### Cross-timeline frame conversion (source lines 1152–1158) and
audio duration decoding (source lines 434–452).

Python `int()` truncates toward zero; `ratTrunc` is that truncation. -/

def ratTrunc (q : ℚ) : Int :=
  if q < 0 then -⌊-q⌋ else ⌊q⌋

def convert_blender_frame_to_resolve (frame frame_start : Int) (blender_fps : ℚ)
    (resolve_start : Int) (resolve_fps : ℚ) : Int :=
  let seconds_from_start : ℚ := ((frame : ℚ) - (frame_start : ℚ)) / blender_fps
  resolve_start + ratTrunc (seconds_from_start * resolve_fps)

def resolve_duration_frames (dur_sec resolve_fps : ℚ) : Int :=
  max 1 (ratTrunc (dur_sec * resolve_fps))

/-- `aud` fallback of `get_audio_duration_seconds`: a decoded length is used
only when positive, otherwise the 1.0-second default applies. -/
def audFallback (audLength : Option ℚ) : ℚ :=
  match audLength with
  | some l => if l > 0 then l else 1
  | none => 1

/-- `get_audio_duration_seconds`: for a WAV file that decodes, the duration is
`nframes / framerate` (a zero frame rate raises and is caught, falling
through); otherwise the `aud` backend result or the 1.0-second default.
`wavInfo` is the `(getnframes, getframerate)` pair when the `wave` module
succeeds, `none` for non-WAV files or decode errors. -/
def get_audio_duration_seconds (wavInfo : Option (Nat × Nat)) (audLength : Option ℚ) : ℚ :=
  match wavInfo with
  | some (nframes, framerate) =>
    if framerate ≠ 0 then (nframes : ℚ) / (framerate : ℚ) else audFallback audLength
  | none => audFallback audLength

/-! ### Crossing detector (source lines 391–425, `detect_z_crossings`)

The host's motion sampling (`scene.frame_set(frame)` followed by
`armature_obj.matrix_world @ pose_bone.tail`) is abstracted to a feed
`pos : String → Int → ℚ` giving each bone's world-space Z at each frame.
The scene's current-frame cursor is threaded through the state so that the
side effect of the scan is visible to the caller models below. -/

inductive Direction
  | up
  | down
  | both
deriving DecidableEq

/-- The per-direction crossing test of lines 410–416. -/
def crossed (direction : Direction) (bone_prev_z world_z threshold : ℚ) : Bool :=
  match direction with
  | .both =>
      (decide (bone_prev_z < threshold) && decide (world_z ≥ threshold)) ||
      (decide (bone_prev_z > threshold) && decide (world_z ≤ threshold))
  | .up => decide (bone_prev_z < threshold) && decide (world_z ≥ threshold)
  | .down => decide (bone_prev_z > threshold) && decide (world_z ≤ threshold)

/-- Replace the value stored at key `f`, keeping entry order (a Python dict
assignment to an existing key). -/
def setEntry : List (Int × ℚ × String) → Int → ℚ × String → List (Int × ℚ × String)
  | [], f, v => [(f, v)]
  | (g, w) :: rest, f, v =>
      if g = f then (f, v) :: rest else (g, w) :: setEntry rest f v

/-- `frame in crossing_data` / `crossing_data[frame]` on the association
list. -/
def lookupEvent : List (Int × ℚ × String) → Int → Option (ℚ × String)
  | [], _ => none
  | (g, v) :: rest, f => if g = f then some v else lookupEvent rest f

/-- Lines 420–421: record the event unless the frame already holds one at
least as fast (`crossing_speed > crossing_data[frame][0]` is strict). -/
def updateEvent (d : List (Int × ℚ × String)) (f : Int) (sp : ℚ) (b : String) :
    List (Int × ℚ × String) :=
  match lookupEvent d f with
  | none => d ++ [(f, (sp, b))]
  | some (sp0, _) => if sp0 < sp then setEntry d f (sp, b) else d

structure DetectState where
  prevZ : String → Option ℚ
  data : List (Int × ℚ × String)
  cursor : Int

/-- Body of the inner `for pose_bone in pose_bones` loop (lines 404–423):
test the crossing against the stored previous Z, then store the current Z
unconditionally. -/
def stepPoint (pos : String → Int → ℚ) (threshold : ℚ) (direction : Direction)
    (f : Int) (st : DetectState) (p : String) : DetectState :=
  let world_z := pos p f
  let st1 :=
    match st.prevZ p with
    | none => st
    | some bone_prev_z =>
        if crossed direction bone_prev_z world_z threshold then
          { st with data := updateEvent st.data f (|world_z - bone_prev_z|) p }
        else st
  { st1 with prevZ := fun q => if q = p then some world_z else st1.prevZ q }

/-- One iteration of the frame loop: `scene.frame_set(frame)` then the scan
over all monitored bones. -/
def processFrame (pos : String → Int → ℚ) (points : List String) (threshold : ℚ)
    (direction : Direction) (st : DetectState) (f : Int) : DetectState :=
  points.foldl (stepPoint pos threshold direction f) { st with cursor := f }

/-- `range(frame_start, frame_end + 1)` as a list of frames. -/
def frameList (frame_start frame_end : Int) : List Int :=
  (List.range (frame_end + 1 - frame_start).toNat).map
    (fun (i : Nat) => frame_start + (i : Int))

def detectLoop (pos : String → Int → ℚ) (points : List String) (threshold : ℚ)
    (direction : Direction) (frame_start frame_end cursor0 : Int) : DetectState :=
  (frameList frame_start frame_end).foldl
    (processFrame pos points threshold direction)
    { prevZ := fun _ => none, data := [], cursor := cursor0 }

/-- `detect_z_crossings`: the returned `frame -> (crossing_speed, bone_name)`
dict, as an insertion-ordered association list. -/
def detect_z_crossings (pos : String → Int → ℚ) (pose_bones : List String)
    (threshold : ℚ) (direction : Direction) (frame_start frame_end : Int) :
    List (Int × ℚ × String) :=
  (detectLoop pos pose_bones threshold direction frame_start frame_end frame_start).data

/-- The spec's detector scenario: one point whose positions over frames
0–5 are `[-1, -0.5, 0.5, 1, -1, -0.5]`. -/
def scenPos : String → Int → ℚ := fun _ f =>
  if f = 0 then -1 else if f = 1 then -1/2 else if f = 2 then 1/2
  else if f = 3 then 1 else if f = 4 then -1 else if f = 5 then -1/2 else 0

/-- Two points crossing upward on the same frame with equal speeds. -/
def tiePos : String → Int → ℚ := fun _ f =>
  if f = 0 then -1 else if f = 1 then 1 else 0

/-- Two points crossing upward on the same frame, `"Q"` strictly faster. -/
def fasterPos : String → Int → ℚ := fun p f =>
  if p = "Q" then (if f = 0 then -2 else if f = 1 then 1 else 0)
  else (if f = 0 then -1 else if f = 1 then 1 else 0)

/-! ### Track scheduler (source lines 303–312, 315–355, 677–704)

`strips_overlap` compares `frame_final_start`/`frame_final_end`;
`ResolvePlacementStrip` objects always carry both, so the `hasattr`
fallbacks never fire for the inputs modelled here. -/

def strips_overlap (start1 end1 start2 end2 : Int) : Bool :=
  decide (start1 < end2) && decide (start2 < end1)

/-- `ResolvePlacementStrip` plus its position in the caller's input list
(needed because the Python code mutates the strip objects in place and the
caller reads the channels back in input order). -/
structure PStrip where
  idx : Nat
  fstart : Int
  fend : Int
deriving DecidableEq

/-- An entry of the scheduler's `channel_strips` state: a strip together
with the channel it was placed on. -/
structure Placed where
  idx : Nat
  track : Int
  fstart : Int
  fend : Int
deriving DecidableEq

/-- Does the candidate channel `t` hold a strip overlapping `[s, e)`?
(the `for existing_strip in channel_strips[test_channel]` check; an empty
channel trivially reports no overlap, matching the
`test_channel not in channel_strips` fast path). -/
def overlapsAnyOn (placed : List Placed) (t s e : Int) : Bool :=
  placed.any (fun p => decide (p.track = t) && strips_overlap s e p.fstart p.fend)

/-- The unbounded `while True: ... test_channel += 1` search, embedded with
an explicit fuel argument; `findTrack` supplies fuel `placed.length + 1`,
which is sufficient because at most `placed.length` channels are occupied
(proved in `findTrack_terminates`), so the embedding computes exactly the
channel the Python loop reaches. -/
def findTrackGo (placed : List Placed) (s e : Int) : Nat → Int → Int
  | 0, t => t
  | fuel + 1, t =>
      if overlapsAnyOn placed t s e then findTrackGo placed s e fuel (t + 1) else t

def findTrack (placed : List Placed) (base s e : Int) : Int :=
  findTrackGo placed s e (placed.length + 1) base

/-- Place one strip on the first non-overlapping channel at or above
`base` and record the assignment. -/
def placeStrip (base : Int) (placed : List Placed) (st : PStrip) : List Placed :=
  ⟨st.idx, findTrack placed base st.fstart st.fend, st.fstart, st.fend⟩ :: placed

/-- Stable insertion by start frame: a strip moves before another only when
its start is strictly smaller, so equal starts keep input order, matching
Python's stable `sorted(..., key=lambda s: s.frame_final_start)`. -/
def insertByStart (x : PStrip) : List PStrip → List PStrip
  | [] => [x]
  | y :: ys => if x.fstart < y.fstart then x :: y :: ys else y :: insertByStart x ys

def sortByStart (l : List PStrip) : List PStrip :=
  l.foldl (fun acc x => insertByStart x acc) []

/-- `separate_overlapping_strips`: greedy channel assignment over the
start-sorted strips; the returned list is the final placement state (the
source mutates `strip.channel` instead of returning it). -/
def separate_overlapping_strips (strips : List PStrip) (base_channel : Int) :
    List Placed :=
  (sortByStart strips).foldl (placeStrip base_channel) []

def mkStrips (clip_data : List (Int × Int)) : List PStrip :=
  clip_data.enum.map (fun p => ⟨p.1, p.2.1, p.2.1 + p.2.2⟩)

/-- `compute_resolve_track_assignments_with_vse_logic`: run the VSE channel
separation on `(frame, duration_frames)` pairs and read the channels back
in input order. -/
def compute_resolve_track_assignments_with_vse_logic
    (clip_data : List (Int × Int)) (base_track : Int) : List Int :=
  let placed := separate_overlapping_strips (mkStrips clip_data) base_track
  (List.range clip_data.length).map
    (fun i => (((placed.find? (fun p => p.idx == i)).map Placed.track).getD 0))

/-! ### Resolve media-pool identity resolution (source lines 515–595)

The OS-level `os.path.realpath` is abstracted as an arbitrary function
`realpathFn`; `os.path.basename` and `os.path.splitext` are implemented on
strings (POSIX rules).  A catalog clip is its `GetName()` string plus the
normalized `File Path` property (`""` when unavailable), listed in
media-pool scan order; clips whose `GetName()` raises are skipped by the
source and are therefore absent from the modelled catalog. -/

structure MediaClip where
  name : String
  path : String
deriving DecidableEq

/-- `os.path.basename` (POSIX): the part after the last `/`. -/
def basenameOf (s : String) : String :=
  ⟨(s.data.reverse.takeWhile (fun c => c ≠ '/')).reverse⟩

/-- The stem part of `os.path.splitext` applied to a path's final
component: drop the suffix from the last dot, unless every character
before that dot is itself a dot (leading dots are not extensions). -/
def stemChars (base : List Char) : List Char :=
  let r := base.reverse
  match r.dropWhile (fun c => c ≠ '.') with
  | [] => base
  | _ :: before =>
      if before.any (fun c => c ≠ '.') then before.reverse else base

/-- `os.path.splitext(s)[0]`. -/
def splitextStem (s : String) : String :=
  let r := s.data.reverse
  let baseRev := r.takeWhile (fun c => c ≠ '/')
  let dirRev := r.dropWhile (fun c => c ≠ '/')
  ⟨dirRev.reverse ++ stemChars baseRev.reverse⟩

def startsWithChars : List Char → List Char → Bool
  | [], _ => true
  | _ :: _, [] => false
  | a :: as, b :: bs => decide (a = b) && startsWithChars as bs

def hasSubstrChars : List Char → List Char → Bool
  | needle, [] => needle.isEmpty
  | needle, c :: rest => startsWithChars needle (c :: rest) || hasSubstrChars needle rest

/-- Python's `needle in hay` on strings. -/
def pyIn (needle hay : String) : Bool :=
  hasSubstrChars needle.data hay.data

/-- `dict.setdefault`: keep the first-registered value for a key. -/
def setdefault (d : List (String × MediaClip)) (k : String) (v : MediaClip) :
    List (String × MediaClip) :=
  match d.lookup k with
  | some _ => d
  | none => d ++ [(k, v)]

/-- One keyed lookup of `build_resolve_media_pool_lookup`: fold the catalog
registering `key c ↦ c` when `guard c` holds (the source builds the three
dicts in a single scan; building each by its own identical scan yields the
same dicts). -/
def buildLookup (guard : MediaClip → Bool) (key : MediaClip → String)
    (clips : List MediaClip) : List (String × MediaClip) :=
  clips.foldl (fun d c => if guard c then setdefault d (key c) c else d) []

def nameNonempty (c : MediaClip) : Bool := c.name ≠ ""

def pathNonempty (c : MediaClip) : Bool := c.path ≠ ""

def byPathOf (clips : List MediaClip) : List (String × MediaClip) :=
  buildLookup pathNonempty MediaClip.path clips

def byNameOf (clips : List MediaClip) : List (String × MediaClip) :=
  buildLookup nameNonempty MediaClip.name clips

def byStemOf (clips : List MediaClip) : List (String × MediaClip) :=
  buildLookup nameNonempty (fun c => splitextStem c.name) clips

def build_resolve_media_pool_lookup (clips : List MediaClip) :
    List (String × MediaClip) × List (String × MediaClip) × List (String × MediaClip) :=
  (byPathOf clips, byNameOf clips, byStemOf clips)

/-- `find_resolve_media_clip`: path tier, name tier, stem tier, then the
substring scan over `clip_by_name.items()`. -/
def find_resolve_media_clip (realpathFn : String → String) (sound_path : String)
    (clip_by_path clip_by_name clip_by_stem : List (String × MediaClip)) :
    Option MediaClip :=
  let norm_path := realpathFn sound_path
  match clip_by_path.lookup norm_path with
  | some c => some c
  | none =>
    let sound_filename := basenameOf norm_path
    match clip_by_name.lookup sound_filename with
    | some c => some c
    | none =>
      let sound_stem := splitextStem sound_filename
      match clip_by_stem.lookup sound_stem with
      | some c => some c
      | none =>
        (clip_by_name.find? (fun kv =>
          pyIn sound_filename kv.1 || pyIn kv.1 sound_filename)).map Prod.snd

/-- The spec's own description of identity resolution, stated directly over
the registration-ordered catalog: four tiers tried in order, each tier
returning its first-registered match, `none` when every tier misses.  The
refinement theorem compares `find_resolve_media_clip` over the built
lookups against this definition. -/
def findClipSpec (realpathFn : String → String) (sound_path : String)
    (clips : List MediaClip) : Option MediaClip :=
  let norm_path := realpathFn sound_path
  let sound_filename := basenameOf norm_path
  let sound_stem := splitextStem sound_filename
  match clips.find? (fun c => pathNonempty c && (norm_path == c.path)) with
  | some c => some c
  | none =>
    match clips.find? (fun c => nameNonempty c && (sound_filename == c.name)) with
    | some c => some c
    | none =>
      match clips.find? (fun c => nameNonempty c &&
          (sound_stem == splitextStem c.name)) with
      | some c => some c
      | none =>
        clips.find? (fun c => nameNonempty c &&
          (pyIn sound_filename c.name || pyIn c.name sound_filename))

/-- A two-clip catalog whose clips share a filename: used to exercise the
tier precedence and the first-registered-wins tie rule. -/
def demoCatalog : List MediaClip :=
  [⟨"a.wav", "/x/a.wav"⟩, ⟨"a.wav", "/y/a.wav"⟩]

/-! ### Operator control flow and the current-frame cursor
(source lines 717–903 `VSE_OT_AddSoundsAtZCrossings.execute`,
952–1213 `VSE_OT_SendSoundsToDaVinciResolve.execute`)

Only the host cursor (`scene.frame_current` / `scene.frame_set`) and the
exit taken are modelled; the validation outcomes are the boolean
parameters.  Both operators save `original_frame` before the scan and call
`scene.frame_set(original_frame)` immediately after `detect_z_crossings`
returns; every later exit path leaves the cursor untouched. -/

inductive OpStatus
  | cancelled
  | finished
deriving DecidableEq

/-- `VSE_OT_AddSoundsAtZCrossings.execute`: returns the operator status and
the final value of the scene's current-frame cursor. -/
def vse_add_sounds_run (armatureOk soundOk bonesOk poseBonesOk : Bool)
    (pos : String → Int → ℚ) (points : List String) (threshold : ℚ)
    (direction : Direction) (frame_start frame_end original_frame : Int) :
    OpStatus × Int :=
  if !armatureOk then (.cancelled, original_frame)
  else if !soundOk then (.cancelled, original_frame)
  else if !bonesOk then (.cancelled, original_frame)
  else if !poseBonesOk then (.cancelled, original_frame)
  else
    let st := detectLoop pos points threshold direction frame_start frame_end
      original_frame
    let restored := original_frame
    if st.data.isEmpty then (.cancelled, restored)
    else (.finished, restored)

/-- `VSE_OT_SendSoundsToDaVinciResolve.execute`: as above, with the Resolve
connection and import outcomes as further booleans (both are tested after
the cursor has been restored). -/
def vse_send_sounds_run (armatureOk soundOk bonesOk poseBonesOk resolveOk importOk : Bool)
    (pos : String → Int → ℚ) (points : List String) (threshold : ℚ)
    (direction : Direction) (frame_start frame_end original_frame : Int) :
    OpStatus × Int :=
  if !armatureOk then (.cancelled, original_frame)
  else if !soundOk then (.cancelled, original_frame)
  else if !bonesOk then (.cancelled, original_frame)
  else if !poseBonesOk then (.cancelled, original_frame)
  else
    let st := detectLoop pos points threshold direction frame_start frame_end
      original_frame
    let restored := original_frame
    if st.data.isEmpty then (.cancelled, restored)
    else if !resolveOk then (.cancelled, restored)
    else if !importOk then (.cancelled, restored)
    else (.finished, restored)

/-! ## Helper lemmas -/

theorem stepPoint_cursor (pos : String → Int → ℚ) (threshold : ℚ)
    (direction : Direction) (f : Int) (st : DetectState) (p : String) :
    (stepPoint pos threshold direction f st p).cursor = st.cursor := by
  unfold stepPoint
  cases h : st.prevZ p with
  | none => rfl
  | some pz => dsimp only; split <;> rfl

theorem foldl_stepPoint_cursor (pos : String → Int → ℚ) (threshold : ℚ)
    (direction : Direction) (f : Int) :
    ∀ (points : List String) (st : DetectState),
      (points.foldl (stepPoint pos threshold direction f) st).cursor = st.cursor := by
  intro points
  induction points with
  | nil => intro st; rfl
  | cons p ps ih =>
      intro st
      rw [List.foldl_cons, ih, stepPoint_cursor]

theorem processFrame_cursor (pos : String → Int → ℚ) (points : List String)
    (threshold : ℚ) (direction : Direction) (st : DetectState) (f : Int) :
    (processFrame pos points threshold direction st f).cursor = f := by
  unfold processFrame
  rw [foldl_stepPoint_cursor]

theorem foldl_processFrame_cursor (pos : String → Int → ℚ) (points : List String)
    (threshold : ℚ) (direction : Direction) :
    ∀ (l : List Int) (st : DetectState),
      (l.foldl (processFrame pos points threshold direction) st).cursor
        = l.getLastD st.cursor := by
  intro l
  induction l with
  | nil => intro st; rfl
  | cons f fs ih =>
      intro st
      rw [List.foldl_cons, List.getLastD_cons, ih]
      by_cases h : fs = []
      · subst h; simp [processFrame_cursor]
      · have h1 : fs.getLastD (processFrame pos points threshold direction st f).cursor
            = fs.getLastD f := by
          rw [processFrame_cursor]
        exact h1

theorem frameList_getLastD (frame_start frame_end : Int) (h : frame_start ≤ frame_end) :
    ∀ d : Int, (frameList frame_start frame_end).getLastD d = frame_end := by
  intro d
  unfold frameList
  have hk : (frame_end + 1 - frame_start).toNat = (frame_end - frame_start).toNat + 1 := by
    omega
  rw [hk, List.range_succ, List.map_append]
  simp only [List.map_cons, List.map_nil]
  rw [List.getLastD_concat]
  omega

theorem crossed_self (direction : Direction) (z threshold : ℚ) :
    crossed direction z z threshold = false := by
  cases direction with
  | up =>
      simp only [crossed, Bool.and_eq_false_iff, decide_eq_false_iff_not, not_lt, not_le]
      exact le_or_lt threshold z
  | down =>
      simp only [crossed, Bool.and_eq_false_iff, decide_eq_false_iff_not, not_lt, not_le]
      exact le_or_lt z threshold
  | both =>
      simp only [crossed, Bool.or_eq_false_iff, Bool.and_eq_false_iff,
        decide_eq_false_iff_not, not_lt, not_le]
      exact ⟨le_or_lt threshold z, le_or_lt z threshold⟩

theorem lookupEvent_append_single (d : List (Int × ℚ × String)) (f g : Int)
    (v : ℚ × String) :
    lookupEvent (d ++ [(f, v)]) g =
      match lookupEvent d g with
      | some w => some w
      | none => if f = g then some v else none := by
  induction d with
  | nil => simp [lookupEvent]
  | cons hd tl ih =>
      obtain ⟨k, w⟩ := hd
      by_cases hk : k = g
      · simp [lookupEvent, hk]
      · rw [List.cons_append]
        simp only [lookupEvent, if_neg hk]
        exact ih

theorem lookupEvent_setEntry_ne (d : List (Int × ℚ × String)) (f g : Int)
    (v : ℚ × String) (h : g ≠ f) :
    lookupEvent (setEntry d f v) g = lookupEvent d g := by
  have hfg : ¬(f = g) := fun hh => h hh.symm
  induction d with
  | nil =>
      simp only [setEntry, lookupEvent, if_neg hfg]
  | cons hd tl ih =>
      obtain ⟨k, w⟩ := hd
      by_cases hk : k = f
      · subst hk
        simp [setEntry, lookupEvent, if_neg hfg]
      · simp only [setEntry, if_neg hk, lookupEvent]
        by_cases hkg : k = g
        · rw [if_pos hkg, if_pos hkg]
        · rw [if_neg hkg, if_neg hkg]
          exact ih

theorem setEntry_map_fst (d : List (Int × ℚ × String)) (f : Int) (v : ℚ × String)
    (h : lookupEvent d f ≠ none) :
    (setEntry d f v).map Prod.fst = d.map Prod.fst := by
  induction d with
  | nil => exact absurd rfl h
  | cons hd tl ih =>
      obtain ⟨k, w⟩ := hd
      by_cases hk : k = f
      · subst hk
        simp [setEntry]
      · have h' : lookupEvent tl f ≠ none := by
          simpa [lookupEvent, hk] using h
        simp only [setEntry, if_neg hk, List.map_cons, ih h']

theorem lookupEvent_eq_none (d : List (Int × ℚ × String)) (f : Int) :
    lookupEvent d f = none ↔ f ∉ d.map Prod.fst := by
  induction d with
  | nil => simp [lookupEvent]
  | cons hd tl ih =>
      obtain ⟨k, w⟩ := hd
      by_cases hk : k = f
      · subst hk; simp [lookupEvent]
      · simp only [lookupEvent, if_neg hk, List.map_cons, List.mem_cons, ih]
        constructor
        · rintro hnot (hfk | hmem)
          · exact hk hfk.symm
          · exact hnot hmem
        · exact fun hnot hmem => hnot (Or.inr hmem)

theorem updateEvent_map_fst_nodup (d : List (Int × ℚ × String)) (f : Int) (sp : ℚ)
    (b : String) (h : (d.map Prod.fst).Nodup) :
    ((updateEvent d f sp b).map Prod.fst).Nodup := by
  unfold updateEvent
  cases hd : lookupEvent d f with
  | none =>
      have hf : f ∉ d.map Prod.fst := (lookupEvent_eq_none d f).1 hd
      dsimp only
      rw [List.map_append]
      simpa [List.concat_eq_append] using h.concat hf
  | some v =>
      obtain ⟨sp0, b0⟩ := v
      dsimp only
      split
      · rw [setEntry_map_fst d f _ (by rw [hd]; exact fun hh => Option.noConfusion hh)]
        exact h
      · exact h

theorem lookupEvent_updateEvent_some (d : List (Int × ℚ × String)) (f : Int) (sp : ℚ)
    (b : String) (g : Int) (v : ℚ × String)
    (h : lookupEvent (updateEvent d f sp b) g = some v) :
    g = f ∨ lookupEvent d g ≠ none := by
  unfold updateEvent at h
  cases hd : lookupEvent d f with
  | none =>
      rw [hd] at h
      dsimp only at h
      rw [lookupEvent_append_single] at h
      cases hg : lookupEvent d g with
      | none =>
          rw [hg] at h
          dsimp only at h
          split at h
          next hfg => exact Or.inl hfg.symm
          next => exact Option.noConfusion h
      | some w => exact Or.inr (fun hh => Option.noConfusion hh)
  | some w =>
      obtain ⟨sp0, b0⟩ := w
      rw [hd] at h
      dsimp only at h
      split at h
      · by_cases hg : g = f
        · exact Or.inl hg
        · rw [lookupEvent_setEntry_ne d f g _ hg] at h
          exact Or.inr (by rw [h]; exact fun hh => Option.noConfusion hh)
      · exact Or.inr (by rw [h]; exact fun hh => Option.noConfusion hh)

theorem stepPoint_data_cases (pos : String → Int → ℚ) (threshold : ℚ)
    (direction : Direction) (f : Int) (st : DetectState) (p : String) :
    (stepPoint pos threshold direction f st p).data = st.data ∨
    ∃ sp, (stepPoint pos threshold direction f st p).data = updateEvent st.data f sp p := by
  unfold stepPoint
  cases hp : st.prevZ p <;> dsimp only
  · exact Or.inl rfl
  · split
    · exact Or.inr ⟨_, rfl⟩
    · exact Or.inl rfl

theorem stepPoint_prevZ (pos : String → Int → ℚ) (threshold : ℚ)
    (direction : Direction) (f : Int) (st : DetectState) (p : String) :
    (stepPoint pos threshold direction f st p).prevZ
      = fun q => if q = p then some (pos p f) else st.prevZ q := by
  unfold stepPoint
  cases hp : st.prevZ p with
  | none => rfl
  | some pz =>
      dsimp only
      funext q
      by_cases hq : q = p
      · rw [if_pos hq, if_pos hq]
      · rw [if_neg hq, if_neg hq]
        split <;> rfl

theorem stepPoint_data_fresh (pos : String → Int → ℚ) (threshold : ℚ)
    (direction : Direction) (f : Int) (st : DetectState) (p : String)
    (h : st.prevZ p = none ∨ st.prevZ p = some (pos p f)) :
    (stepPoint pos threshold direction f st p).data = st.data := by
  unfold stepPoint
  rcases h with h | h
  · rw [h]
  · rw [h]
    simp [crossed_self]

theorem foldl_stepPoint_fresh (pos : String → Int → ℚ) (threshold : ℚ)
    (direction : Direction) (f : Int) :
    ∀ (points : List String) (st : DetectState),
      (∀ p, st.prevZ p = none ∨ st.prevZ p = some (pos p f)) →
      (points.foldl (stepPoint pos threshold direction f) st).data = st.data := by
  intro points
  induction points with
  | nil => intro st _; rfl
  | cons p ps ih =>
      intro st hQ
      rw [List.foldl_cons]
      have hQ' : ∀ q, (stepPoint pos threshold direction f st p).prevZ q = none ∨
          (stepPoint pos threshold direction f st p).prevZ q = some (pos q f) := by
        intro q
        rw [stepPoint_prevZ]
        by_cases hq : q = p
        · subst hq; simp
        · simp only [if_neg hq]; exact hQ q
      rw [ih _ hQ', stepPoint_data_fresh pos threshold direction f st p (hQ p)]

theorem foldl_stepPoint_data_some (pos : String → Int → ℚ) (threshold : ℚ)
    (direction : Direction) (f : Int) :
    ∀ (points : List String) (st : DetectState) (g : Int) (v : ℚ × String),
      lookupEvent (points.foldl (stepPoint pos threshold direction f) st).data g = some v →
      g = f ∨ lookupEvent st.data g ≠ none := by
  intro points
  induction points with
  | nil =>
      intro st g v h
      rw [List.foldl_nil] at h
      exact Or.inr (by rw [h]; exact fun hh => Option.noConfusion hh)
  | cons p ps ih =>
      intro st g v h
      rw [List.foldl_cons] at h
      rcases ih _ g v h with hgf | hne
      · exact Or.inl hgf
      · rcases stepPoint_data_cases pos threshold direction f st p with hc | ⟨sp, hc⟩
        · rw [hc] at hne
          exact Or.inr hne
        · rw [hc] at hne
          cases hl : lookupEvent (updateEvent st.data f sp p) g with
          | none => exact absurd hl hne
          | some w => exact lookupEvent_updateEvent_some _ _ _ _ _ _ hl

theorem foldl_stepPoint_nodup (pos : String → Int → ℚ) (threshold : ℚ)
    (direction : Direction) (f : Int) :
    ∀ (points : List String) (st : DetectState),
      (st.data.map Prod.fst).Nodup →
      ((points.foldl (stepPoint pos threshold direction f) st).data.map Prod.fst).Nodup := by
  intro points
  induction points with
  | nil => intro st h; exact h
  | cons p ps ih =>
      intro st h
      rw [List.foldl_cons]
      apply ih
      rcases stepPoint_data_cases pos threshold direction f st p with hc | ⟨sp, hc⟩
      · rw [hc]; exact h
      · rw [hc]; exact updateEvent_map_fst_nodup _ _ _ _ h

theorem detectLoop_data_range (pos : String → Int → ℚ) (points : List String)
    (threshold : ℚ) (direction : Direction) (P : Int → Prop) :
    ∀ (l : List Int) (st : DetectState),
      (∀ f ∈ l, P f) →
      (∀ g v, lookupEvent st.data g = some v → P g) →
      ∀ g v,
        lookupEvent (l.foldl (processFrame pos points threshold direction) st).data g
          = some v → P g := by
  intro l
  induction l with
  | nil => intro st _ hst g v h; exact hst g v h
  | cons f fs ih =>
      intro st hl hst g v h
      rw [List.foldl_cons] at h
      refine ih _ (fun f' hf' => hl f' (List.mem_cons_of_mem f hf')) ?_ g v h
      intro g' v' h'
      unfold processFrame at h'
      rcases foldl_stepPoint_data_some pos threshold direction f points _ g' v' h' with
        hgf | hne
      · exact hgf ▸ hl f (List.mem_cons_self f fs)
      · cases hl' : lookupEvent st.data g' with
        | none => exact absurd hl' hne
        | some w => exact hst g' w hl'

theorem detectLoop_nodup (pos : String → Int → ℚ) (points : List String)
    (threshold : ℚ) (direction : Direction) :
    ∀ (l : List Int) (st : DetectState),
      (st.data.map Prod.fst).Nodup →
      ((l.foldl (processFrame pos points threshold direction) st).data.map Prod.fst).Nodup := by
  intro l
  induction l with
  | nil => intro st h; exact h
  | cons f fs ih =>
      intro st h
      rw [List.foldl_cons]
      apply ih
      unfold processFrame
      exact foldl_stepPoint_nodup pos threshold direction f points _ h

theorem frameList_nil (s e : Int) (h : e < s) : frameList s e = [] := by
  unfold frameList
  have hk : (e + 1 - s).toNat = 0 := by omega
  rw [hk]
  rfl

theorem frameList_cons (s e : Int) (h : s ≤ e) :
    frameList s e = s :: frameList (s + 1) e := by
  unfold frameList
  have hk : (e + 1 - s).toNat = (e + 1 - (s + 1)).toNat + 1 := by omega
  rw [hk, List.range_succ_eq_map, List.map_cons, List.map_map]
  congr 1
  · simp
  · congr 1
    funext i
    simp only [Function.comp_apply]
    push_cast
    ring

theorem frameList_mem (s e f : Int) (h : f ∈ frameList s e) : s ≤ f ∧ f ≤ e := by
  unfold frameList at h
  simp only [List.mem_map, List.mem_range] at h
  obtain ⟨i, hi, rfl⟩ := h
  omega

theorem findTrackGo_le (placed : List Placed) (s e : Int) :
    ∀ (fuel : Nat) (t0 : Int), t0 ≤ findTrackGo placed s e fuel t0 := by
  intro fuel
  induction fuel with
  | zero => intro t0; exact le_refl t0
  | succ n ih =>
      intro t0
      unfold findTrackGo
      split
      · exact le_trans (by omega) (ih (t0 + 1))
      · exact le_refl t0

theorem findTrackGo_spec (placed : List Placed) (s e : Int) :
    ∀ (fuel : Nat) (t0 : Int),
      (∃ k : Nat, k < fuel ∧ overlapsAnyOn placed (t0 + (k : Int)) s e = false) →
      overlapsAnyOn placed (findTrackGo placed s e fuel t0) s e = false ∧
      (∀ u, t0 ≤ u → u < findTrackGo placed s e fuel t0 →
        overlapsAnyOn placed u s e = true) := by
  intro fuel
  induction fuel with
  | zero =>
      intro t0 h
      obtain ⟨k, hk, _⟩ := h
      omega
  | succ n ih =>
      intro t0 h
      obtain ⟨k, hk, hfree⟩ := h
      unfold findTrackGo
      split
      next hcond =>
          have hk0 : k ≠ 0 := by
            intro hzero
            subst hzero
            rw [show t0 + ((0 : Nat) : Int) = t0 by omega] at hfree
            rw [hcond] at hfree
            exact Bool.noConfusion hfree
          obtain ⟨k', rfl⟩ : ∃ k', k = k' + 1 := ⟨k - 1, by omega⟩
          have hfree' : overlapsAnyOn placed ((t0 + 1) + (k' : Int)) s e = false := by
            rw [show (t0 + 1) + (k' : Int) = t0 + ((k' + 1 : Nat) : Int) by push_cast; ring]
            exact hfree
          obtain ⟨hf, hmin⟩ := ih (t0 + 1) ⟨k', by omega, hfree'⟩
          refine ⟨hf, ?_⟩
          intro u hu hlt
          by_cases hut : u = t0
          · subst hut; exact hcond
          · exact hmin u (by omega) hlt
      next hcond =>
          have h0' : overlapsAnyOn placed t0 s e = false := by
            cases hb : overlapsAnyOn placed t0 s e
            · rfl
            · exact absurd hb hcond
          exact ⟨h0', fun u hu hlt => by omega⟩

theorem exists_unused_track (placed : List Placed) (base : Int) :
    ∃ t, base ≤ t ∧ t ≤ base + placed.length ∧ ∀ p ∈ placed, p.track ≠ t := by
  by_contra hcon
  push_neg at hcon
  have hsub : Finset.Icc base (base + (placed.length : Int)) ⊆
      (placed.map Placed.track).toFinset := by
    intro t ht
    rw [Finset.mem_Icc] at ht
    obtain ⟨p, hp, hpt⟩ := hcon t ht.1 ht.2
    rw [List.mem_toFinset]
    exact hpt ▸ List.mem_map_of_mem Placed.track hp
  have h1 : (Finset.Icc base (base + (placed.length : Int))).card
      = placed.length + 1 := by
    rw [Int.card_Icc]
    omega
  have h2 : (placed.map Placed.track).toFinset.card ≤ placed.length := by
    calc (placed.map Placed.track).toFinset.card
        ≤ (placed.map Placed.track).length := List.toFinset_card_le _
      _ = placed.length := by simp
  have := Finset.card_le_card hsub
  omega

theorem overlapsAnyOn_of_unused (placed : List Placed) (t s e : Int)
    (h : ∀ p ∈ placed, p.track ≠ t) : overlapsAnyOn placed t s e = false := by
  unfold overlapsAnyOn
  rw [List.any_eq_false]
  intro p hp
  simp [h p hp]

theorem findTrack_spec (placed : List Placed) (base s e : Int) :
    base ≤ findTrack placed base s e ∧
    findTrack placed base s e ≤ base + placed.length ∧
    overlapsAnyOn placed (findTrack placed base s e) s e = false ∧
    (∀ u, base ≤ u → u < findTrack placed base s e →
      overlapsAnyOn placed u s e = true) := by
  obtain ⟨t, ht1, ht2, ht3⟩ := exists_unused_track placed base
  have hfree : overlapsAnyOn placed t s e = false :=
    overlapsAnyOn_of_unused placed t s e ht3
  unfold findTrack
  have hk : ∃ k : Nat, k < placed.length + 1 ∧
      overlapsAnyOn placed (base + (k : Int)) s e = false := by
    refine ⟨(t - base).toNat, by omega, ?_⟩
    rw [show base + (((t - base).toNat : Nat) : Int) = t by omega]
    exact hfree
  obtain ⟨hf, hmin⟩ := findTrackGo_spec placed s e (placed.length + 1) base hk
  have hle : base ≤ findTrackGo placed s e (placed.length + 1) base :=
    findTrackGo_le placed s e _ base
  refine ⟨hle, ?_, hf, hmin⟩
  by_contra hgt
  push_neg at hgt
  have hover : overlapsAnyOn placed t s e = true := hmin t ht1 (by omega)
  rw [hfree] at hover
  exact Bool.noConfusion hover

theorem placeStrip_no_overlap (base : Int) (placed : List Placed) (st : PStrip)
    (q : Placed) (hq : q ∈ placed)
    (ht : findTrack placed base st.fstart st.fend = q.track) :
    ¬(st.fstart < q.fend ∧ q.fstart < st.fend) := by
  have hf := (findTrack_spec placed base st.fstart st.fend).2.2.1
  rw [ht] at hf
  unfold overlapsAnyOn at hf
  rw [List.any_eq_false] at hf
  have hfq := hf q hq
  intro hc
  exact hfq (by simp [strips_overlap, hc.1, hc.2])

/-- The scheduling invariant: all assigned tracks are at or above the base
channel, and same-track intervals never overlap. -/
theorem placeAll_ok (base : Int) :
    ∀ (strips : List PStrip) (placed : List Placed),
      (∀ p ∈ placed, base ≤ p.track) →
      placed.Pairwise (fun p q => p.track = q.track →
        ¬(p.fstart < q.fend ∧ q.fstart < p.fend)) →
      (∀ p ∈ strips.foldl (placeStrip base) placed, base ≤ p.track) ∧
      (strips.foldl (placeStrip base) placed).Pairwise (fun p q =>
        p.track = q.track → ¬(p.fstart < q.fend ∧ q.fstart < p.fend)) := by
  intro strips
  induction strips with
  | nil => intro placed h1 h2; exact ⟨h1, h2⟩
  | cons st sts ih =>
      intro placed h1 h2
      rw [List.foldl_cons]
      apply ih
      · intro p hp
        rcases List.mem_cons.1 hp with rfl | hmem
        · exact (findTrack_spec placed base st.fstart st.fend).1
        · exact h1 p hmem
      · refine List.Pairwise.cons ?_ h2
        intro q hq htrack
        exact placeStrip_no_overlap base placed st q hq htrack

theorem foldl_placeStrip_proj (base : Int) :
    ∀ (strips : List PStrip) (placed : List Placed),
      (strips.foldl (placeStrip base) placed).map (fun p => (p.idx, p.fstart, p.fend))
        = (strips.map (fun st => (st.idx, st.fstart, st.fend))).reverse
            ++ placed.map (fun p => (p.idx, p.fstart, p.fend)) := by
  intro strips
  induction strips with
  | nil => intro placed; simp
  | cons st sts ih =>
      intro placed
      rw [List.foldl_cons, ih]
      simp [placeStrip, List.reverse_cons, List.append_assoc]

theorem insertByStart_perm (x : PStrip) :
    ∀ l : List PStrip, (insertByStart x l).Perm (x :: l) := by
  intro l
  induction l with
  | nil => exact List.Perm.refl _
  | cons y ys ih =>
      unfold insertByStart
      split
      · exact List.Perm.refl _
      · exact List.Perm.trans (ih.cons y) (List.Perm.swap x y ys)

theorem sortByStart_perm_aux :
    ∀ (l acc : List PStrip),
      (l.foldl (fun a x => insertByStart x a) acc).Perm (l ++ acc) := by
  intro l
  induction l with
  | nil => intro acc; simp
  | cons x xs ih =>
      intro acc
      rw [List.foldl_cons]
      refine List.Perm.trans (ih (insertByStart x acc)) ?_
      refine List.Perm.trans (List.Perm.append_left xs (insertByStart_perm x acc)) ?_
      exact List.perm_middle

theorem sortByStart_perm (l : List PStrip) : (sortByStart l).Perm l := by
  have h := sortByStart_perm_aux l []
  rw [List.append_nil] at h
  exact h

theorem separate_proj_perm (strips : List PStrip) (base : Int) :
    ((separate_overlapping_strips strips base).map
        (fun p => (p.idx, p.fstart, p.fend))).Perm
      (strips.map (fun st => (st.idx, st.fstart, st.fend))) := by
  unfold separate_overlapping_strips
  rw [foldl_placeStrip_proj, List.map_nil, List.append_nil]
  exact List.Perm.trans (List.reverse_perm _) ((sortByStart_perm strips).map _)

theorem mkStrips_proj (clipData : List (Int × Int)) :
    (mkStrips clipData).map (fun st => (st.idx, st.fstart, st.fend))
      = clipData.enum.map (fun p => (p.1, p.2.1, p.2.1 + p.2.2)) := by
  unfold mkStrips
  rw [List.map_map]
  rfl

theorem mkStrips_idx (clipData : List (Int × Int)) :
    (mkStrips clipData).map PStrip.idx = List.range clipData.length := by
  unfold mkStrips
  rw [List.map_map]
  exact List.enum_map_fst clipData

theorem placed_idx_nodup (clipData : List (Int × Int)) (base : Int) :
    ((separate_overlapping_strips (mkStrips clipData) base).map Placed.idx).Nodup := by
  have hperm := (separate_proj_perm (mkStrips clipData) base).map Prod.fst
  rw [List.map_map, List.map_map] at hperm
  have hl : ((mkStrips clipData).map
      ((Prod.fst ∘ fun st : PStrip => (st.idx, st.fstart, st.fend)))).Nodup := by
    have : (Prod.fst ∘ fun st : PStrip => (st.idx, st.fstart, st.fend))
        = PStrip.idx := rfl
    rw [this, mkStrips_idx]
    exact List.nodup_range _
  have := (hperm.nodup_iff).2 hl
  have heq : (Prod.fst ∘ fun p : Placed => (p.idx, p.fstart, p.fend)) = Placed.idx := rfl
  rw [heq] at this
  exact this

theorem placed_find (clipData : List (Int × Int)) (base : Int) (i : Nat)
    (s d : Int) (hi : clipData[i]? = some (s, d)) :
    ∃ p : Placed,
      (separate_overlapping_strips (mkStrips clipData) base).find?
          (fun p => p.idx == i) = some p ∧
      p ∈ separate_overlapping_strips (mkStrips clipData) base ∧
      p.idx = i ∧ p.fstart = s ∧ p.fend = s + d := by
  set placed := separate_overlapping_strips (mkStrips clipData) base with hplaced
  have hmem : (i, s, s + d) ∈ placed.map (fun p => (p.idx, p.fstart, p.fend)) := by
    refine ((separate_proj_perm (mkStrips clipData) base).mem_iff).2 ?_
    rw [mkStrips_proj]
    refine List.mem_map.2 ⟨(i, (s, d)), ?_, rfl⟩
    exact List.mk_mem_enum_iff_getElem?.2 hi
  obtain ⟨p0, hp0mem, hp0⟩ := List.mem_map.1 hmem
  have hp0idx : p0.idx = i := congrArg Prod.fst hp0
  have hfind : (placed.find? (fun p => p.idx == i)).isSome := by
    rw [List.find?_isSome]
    exact ⟨p0, hp0mem, by simp [hp0idx]⟩
  obtain ⟨q, hq⟩ := Option.isSome_iff_exists.1 hfind
  have hqmem : q ∈ placed := List.mem_of_find?_eq_some hq
  have hqidx : q.idx = i := by
    have := List.find?_some hq
    simpa using this
  have hqp : q = p0 := by
    have hnd := placed_idx_nodup clipData base
    exact List.inj_on_of_nodup_map hnd hqmem hp0mem (by rw [hqidx, hp0idx])
  subst hqp
  exact ⟨q, hq, hqmem, hp0idx, congrArg (Prod.fst ∘ Prod.snd) hp0,
    congrArg (Prod.snd ∘ Prod.snd) hp0⟩

theorem mem_of_lookup_some {d : List (String × MediaClip)} {k : String}
    {v : MediaClip} (h : d.lookup k = some v) : (k, v) ∈ d := by
  induction d with
  | nil => exact Option.noConfusion h
  | cons hd tl ih =>
      obtain ⟨k0, v0⟩ := hd
      rw [List.lookup_cons] at h
      cases hk : k == k0 with
      | true =>
          rw [hk] at h
          dsimp only at h
          obtain rfl := Option.some_inj.1 h
          have hk' : k = k0 := beq_iff_eq.1 hk
          subst hk'
          exact List.mem_cons_self _ _
      | false =>
          rw [hk] at h
          dsimp only at h
          exact List.mem_cons_of_mem _ (ih h)

theorem lookup_eq_find_map (d : List (String × MediaClip)) (k : String) :
    d.lookup k = (d.find? (fun kv => k == kv.1)).map Prod.snd := by
  induction d with
  | nil => rfl
  | cons hd tl ih =>
      obtain ⟨k0, v0⟩ := hd
      rw [List.lookup_cons]
      cases hk : k == k0 with
      | true =>
          rw [List.find?_cons_of_pos _ (by simp [hk])]
          rfl
      | false =>
          rw [List.find?_cons_of_neg _ (by simp [hk])]
          exact ih

theorem setdefault_of_lookup_some {d : List (String × MediaClip)} {k : String}
    {v0 v : MediaClip} (h : d.lookup k = some v0) : setdefault d k v = d := by
  unfold setdefault
  rw [h]

theorem setdefault_of_lookup_none {d : List (String × MediaClip)} {k : String}
    {v : MediaClip} (h : d.lookup k = none) : setdefault d k v = d ++ [(k, v)] := by
  unfold setdefault
  rw [h]

theorem foldl_setdefault_suffix (g : MediaClip → Bool) (key : MediaClip → String) :
    ∀ (cs : List MediaClip) (acc : List (String × MediaClip)),
      ∃ tail, cs.foldl (fun d c => if g c then setdefault d (key c) c else d) acc
        = acc ++ tail := by
  intro cs
  induction cs with
  | nil => intro acc; exact ⟨[], (List.append_nil acc).symm⟩
  | cons c cs ih =>
      intro acc
      rw [List.foldl_cons]
      by_cases hg : g c
      · rw [if_pos hg]
        cases hl : acc.lookup (key c) with
        | some v =>
            rw [setdefault_of_lookup_some hl]
            exact ih acc
        | none =>
            rw [setdefault_of_lookup_none hl]
            obtain ⟨tail, htail⟩ := ih (acc ++ [(key c, c)])
            exact ⟨(key c, c) :: tail, htail.trans (by rw [List.append_assoc]; rfl)⟩
      · rw [if_neg hg]
        exact ih acc

theorem buildLookup_find_eq (g : MediaClip → Bool) (key : MediaClip → String)
    (P : String → Bool) :
    ∀ (cs : List MediaClip) (acc : List (String × MediaClip)),
      acc.find? (fun kv => P kv.1) = none →
      ((cs.foldl (fun d c => if g c then setdefault d (key c) c else d) acc).find?
          (fun kv => P kv.1)).map Prod.snd
        = cs.find? (fun c => g c && P (key c)) := by
  intro cs
  induction cs with
  | nil =>
      intro acc hacc
      rw [List.foldl_nil, hacc]
      rfl
  | cons c cs ih =>
      intro acc hacc
      rw [List.foldl_cons]
      by_cases hg : g c
      · rw [if_pos hg]
        cases hl : acc.lookup (key c) with
        | some v =>
            rw [setdefault_of_lookup_some hl]
            have hP : P (key c) = false := by
              by_contra hPt
              have hPt' : P (key c) = true := by
                cases hb : P (key c)
                · exact absurd hb hPt
                · rfl
              have hmem : (key c, v) ∈ acc := mem_of_lookup_some hl
              have hsome : (acc.find? (fun kv => P kv.1)).isSome := by
                rw [List.find?_isSome]
                exact ⟨(key c, v), hmem, hPt'⟩
              rw [hacc] at hsome
              exact Bool.noConfusion hsome
            rw [ih acc hacc, List.find?_cons_of_neg _ (by simp [hg, hP])]
        | none =>
            rw [setdefault_of_lookup_none hl]
            by_cases hP : P (key c) = true
            · obtain ⟨tail, htail⟩ :=
                foldl_setdefault_suffix g key cs (acc ++ [(key c, c)])
              rw [htail, List.append_assoc, List.singleton_append,
                List.find?_append, hacc, Option.none_or,
                List.find?_cons_of_pos _ (by simp [hP]),
                List.find?_cons_of_pos _ (by simp [hg, hP])]
              rfl
            · have hP' : P (key c) = false := by
                cases hb : P (key c)
                · rfl
                · exact absurd hb hP
              have hacc' : ((acc ++ [(key c, c)]).find? (fun kv => P kv.1)) = none := by
                rw [List.find?_append, hacc, Option.none_or,
                  List.find?_cons_of_neg _ (by simp [hP'])]
                rfl
              rw [ih _ hacc', List.find?_cons_of_neg _ (by simp [hg, hP'])]
      · rw [if_neg hg, ih acc hacc, List.find?_cons_of_neg _ (by simp [hg])]

theorem byPathOf_lookup (clips : List MediaClip) (k : String) :
    (byPathOf clips).lookup k
      = clips.find? (fun c => pathNonempty c && (k == c.path)) := by
  rw [lookup_eq_find_map]
  exact buildLookup_find_eq pathNonempty MediaClip.path (fun s => k == s) clips [] rfl

theorem byNameOf_lookup (clips : List MediaClip) (k : String) :
    (byNameOf clips).lookup k
      = clips.find? (fun c => nameNonempty c && (k == c.name)) := by
  rw [lookup_eq_find_map]
  exact buildLookup_find_eq nameNonempty MediaClip.name (fun s => k == s) clips [] rfl

theorem byStemOf_lookup (clips : List MediaClip) (k : String) :
    (byStemOf clips).lookup k
      = clips.find? (fun c => nameNonempty c && (k == splitextStem c.name)) := by
  rw [lookup_eq_find_map]
  exact buildLookup_find_eq nameNonempty (fun c => splitextStem c.name)
    (fun s => k == s) clips [] rfl

theorem byNameOf_find_substr (clips : List MediaClip) (fname : String) :
    ((byNameOf clips).find? (fun kv => pyIn fname kv.1 || pyIn kv.1 fname)).map
        Prod.snd
      = clips.find? (fun c => nameNonempty c &&
          (pyIn fname c.name || pyIn c.name fname)) :=
  buildLookup_find_eq nameNonempty MediaClip.name
    (fun s => pyIn fname s || pyIn s fname) clips [] rfl

/-! ## Claim theorems -/

/-- C1: the claim says a zero-dynamic-range run (all retained speeds equal)
normalizes every event's speed to 1.0, so base volume = `volume_fastest`.
The code instead sets `speed_range = 1.0` when `max_speed > min_speed`
fails (line 817), which makes the `normalized_speed = 1.0` fallback at line
860 unreachable: the degenerate run normalizes every speed to 0.0 and the
base volume collapses to `volume_slowest`.  This theorem evaluates the
embedded normalization at the failing input (two events, both of speed 2;
`volume_slowest = 3/10`, `volume_fastest = 1`) and at a single-event run of
speed 5. -/
theorem degenerate_range_normalizes_to_zero :
    speedRangeOf [2, 2] = 1 ∧
    normalizedSpeed 2 (minSpeedOf [2, 2]) (speedRangeOf [2, 2]) = 0 ∧
    baseVolumeOf (3/10) 1
        (normalizedSpeed 2 (minSpeedOf [2, 2]) (speedRangeOf [2, 2])) = 3/10 ∧
    normalizedSpeed 2 (minSpeedOf [2, 2]) (speedRangeOf [2, 2]) ≠ 1 ∧
    speedRangeOf [5] = 1 ∧
    normalizedSpeed 5 (minSpeedOf [5]) (speedRangeOf [5]) = 0 := by
  norm_num [speedRangeOf, maxSpeedOf, minSpeedOf, normalizedSpeed, baseVolumeOf]

/-- evaluating the scheduler's output list at an input position. -/
theorem compute_getElem? (clipData : List (Int × Int)) (base : Int) (i : Nat)
    (h : i < clipData.length) :
    (compute_resolve_track_assignments_with_vse_logic clipData base)[i]?
      = some ((((separate_overlapping_strips (mkStrips clipData) base).find?
          (fun p => p.idx == i)).map Placed.track).getD 0) := by
  unfold compute_resolve_track_assignments_with_vse_logic
  rw [List.getElem?_map, List.getElem?_range h]
  rfl

/-- C2: after the greedy pass, any two items returned on the same track
have non-overlapping half-open `[start, start + duration)` intervals, and
every assigned track is at or above the base track. -/
theorem schedule_no_overlap_and_base (clipData : List (Int × Int)) (base : Int) :
    (compute_resolve_track_assignments_with_vse_logic clipData base).length
        = clipData.length ∧
    (∀ (i : Nat) (t : Int),
      (compute_resolve_track_assignments_with_vse_logic clipData base)[i]? = some t →
      base ≤ t) ∧
    (∀ (i j : Nat) (si di sj dj ti tj : Int),
      clipData[i]? = some (si, di) → clipData[j]? = some (sj, dj) →
      (compute_resolve_track_assignments_with_vse_logic clipData base)[i]? = some ti →
      (compute_resolve_track_assignments_with_vse_logic clipData base)[j]? = some tj →
      i ≠ j → ti = tj →
      ¬(si < sj + dj ∧ sj < si + di)) := by
  have hok := placeAll_ok base (sortByStart (mkStrips clipData)) []
    (by intro p hp; exact absurd hp (List.not_mem_nil p)) List.Pairwise.nil
  refine ⟨?_, ?_, ?_⟩
  · unfold compute_resolve_track_assignments_with_vse_logic
    simp
  · intro i t hget
    have hi : i < clipData.length := by
      by_contra hni
      push_neg at hni
      have hlen : (compute_resolve_track_assignments_with_vse_logic clipData
          base).length = clipData.length := by
        unfold compute_resolve_track_assignments_with_vse_logic
        simp
      rw [List.getElem?_eq_none (by omega)] at hget
      exact Option.noConfusion hget
    obtain ⟨p, hfind, hmem, hpidx, hpfs, hpfe⟩ :=
      placed_find clipData base i (clipData[i]).1 (clipData[i]).2
        (by rw [List.getElem?_eq_getElem hi, Prod.mk.eta])
    rw [compute_getElem? clipData base i hi, hfind] at hget
    simp only [Option.map_some', Option.getD_some, Option.some.injEq] at hget
    rw [← hget]
    have hmem' : p ∈ (sortByStart (mkStrips clipData)).foldl (placeStrip base) [] :=
      hmem
    exact hok.1 p hmem'
  · intro i j si di sj dj ti tj hci hcj hgi hgj hij htt
    have hi : i < clipData.length := by
      by_contra hni
      push_neg at hni
      rw [List.getElem?_eq_none hni] at hci
      exact Option.noConfusion hci
    have hj : j < clipData.length := by
      by_contra hnj
      push_neg at hnj
      rw [List.getElem?_eq_none hnj] at hcj
      exact Option.noConfusion hcj
    obtain ⟨p, hfp, hpmem, hpidx, hpfs, hpfe⟩ := placed_find clipData base i si di hci
    obtain ⟨q, hfq, hqmem, hqidx, hqfs, hqfe⟩ := placed_find clipData base j sj dj hcj
    rw [compute_getElem? clipData base i hi, hfp] at hgi
    rw [compute_getElem? clipData base j hj, hfq] at hgj
    simp only [Option.map_some', Option.getD_some, Option.some.injEq] at hgi hgj
    have hpq : p ≠ q := by
      intro he
      apply hij
      rw [← hpidx, he, hqidx]
    have hsym : Symmetric (fun a b : Placed => a.track = b.track →
        ¬(a.fstart < b.fend ∧ b.fstart < a.fend)) := by
      intro a b hab htr hc
      exact hab htr.symm ⟨hc.2, hc.1⟩
    have hpmem' : p ∈ (sortByStart (mkStrips clipData)).foldl (placeStrip base) [] :=
      hpmem
    have hqmem' : q ∈ (sortByStart (mkStrips clipData)).foldl (placeStrip base) [] :=
      hqmem
    have hR := List.Pairwise.forall hsym hok.2 hpmem' hqmem' hpq
    have htr : p.track = q.track := by rw [hgi, hgj, htt]
    have hno := hR htr
    rw [hpfs, hpfe, hqfs, hqfe] at hno
    exact hno

/-- Witness for C2: items `(0,10)` and `(20,5)` both land on track 1 and
indeed do not overlap. -/
theorem schedule_no_overlap_witness :
    ¬((0 : Int) < 20 + 5 ∧ (20 : Int) < 0 + 10) :=
  (schedule_no_overlap_and_base [(0, 10), (20, 5)] 1).2.2 0 1 0 10 20 5 1 1
    (by decide) (by decide) (by decide) (by decide) (by decide) (by decide)

/-- C3: the scheduler sorts by start frame with a stable sort, assigns the
lowest non-conflicting track at or above the base, and reports assignments
in the caller's input order — the spec's scenario `[(0,10),(5,10),(20,5)]`,
base 1, yields `[1,2,1]`; an input whose sorted order differs from input
order comes back in input order; equal start frames keep input order; and
`findTrack` returns the least track at or above `base` with no overlap. -/
theorem schedule_algorithm_spec :
    compute_resolve_track_assignments_with_vse_logic [(0, 10), (5, 10), (20, 5)] 1
        = [1, 2, 1] ∧
    compute_resolve_track_assignments_with_vse_logic [(20, 5), (0, 10), (5, 10)] 1
        = [1, 1, 2] ∧
    compute_resolve_track_assignments_with_vse_logic [(0, 5), (0, 5)] 1 = [1, 2] ∧
    (∀ (placed : List Placed) (base s e : Int),
      base ≤ findTrack placed base s e ∧
      overlapsAnyOn placed (findTrack placed base s e) s e = false ∧
      ∀ u, base ≤ u → u < findTrack placed base s e →
        overlapsAnyOn placed u s e = true) := by
  refine ⟨by decide, by decide, by decide, ?_⟩
  intro placed base s e
  exact ⟨(findTrack_spec placed base s e).1, (findTrack_spec placed base s e).2.2.1,
    (findTrack_spec placed base s e).2.2.2⟩

/-- Witness for C3: with one strip `[0,10)` on track 1, a strip `[5,15)`
is pushed past track 1, which indeed conflicts. -/
theorem schedule_algorithm_witness :
    overlapsAnyOn [⟨0, 1, 0, 10⟩] 1 5 15 = true :=
  (schedule_algorithm_spec.2.2.2 [⟨0, 1, 0, 10⟩] 1 5 15).2.2 1 (le_refl 1) (by decide)

/-- C9: the inner channel-search loop always terminates: among the
`placed.length + 1` candidate tracks starting at `base` there is one with
no placed item at all, the search result stays within that bound, and the
returned track carries no overlap — so the fuelled embedding computes
exactly the channel the unbounded Python loop reaches, and the whole pass
is total. -/
theorem findTrack_terminates (placed : List Placed) (base s e : Int) :
    (∃ t, base ≤ t ∧ t ≤ base + placed.length ∧ ∀ p ∈ placed, p.track ≠ t) ∧
    base ≤ findTrack placed base s e ∧
    findTrack placed base s e ≤ base + placed.length ∧
    overlapsAnyOn placed (findTrack placed base s e) s e = false :=
  ⟨exists_unused_track placed base, (findTrack_spec placed base s e).1,
    (findTrack_spec placed base s e).2.1, (findTrack_spec placed base s e).2.2.1⟩

/-- Witness for C9 at a concrete placement state. -/
theorem findTrack_terminates_witness :
    (∃ t : Int, 1 ≤ t ∧ t ≤ 1 + (([⟨0, 1, 0, 10⟩] : List Placed)).length ∧
        ∀ p ∈ ([⟨0, 1, 0, 10⟩] : List Placed), p.track ≠ t) ∧
    1 ≤ findTrack [⟨0, 1, 0, 10⟩] 1 5 15 ∧
    findTrack [⟨0, 1, 0, 10⟩] 1 5 15 ≤ 1 + (([⟨0, 1, 0, 10⟩] : List Placed)).length ∧
    overlapsAnyOn [⟨0, 1, 0, 10⟩] (findTrack [⟨0, 1, 0, 10⟩] 1 5 15) 5 15 = false :=
  findTrack_terminates [⟨0, 1, 0, 10⟩] 1 5 15

/-- C4: the detector scans frames in increasing order, tests each point
against the threshold using that point's previous-frame position (with the
per-direction predicates of lines 410–416), updates the stored previous
position unconditionally, and never emits an event for a point's first
sampled frame: every recorded frame lies in `(frame_start, frame_end]`.
On the spec's scenario the detector emits exactly frame 2 (speed 1, up)
and frame 4 (speed 2, down); the `up`/`down` filters keep only the
matching one. -/
theorem detect_crossings_spec :
    (∀ (pos : String → Int → ℚ) (points : List String) (threshold : ℚ)
        (direction : Direction) (frame_start frame_end f : Int) (ev : ℚ × String),
      lookupEvent (detect_z_crossings pos points threshold direction frame_start
          frame_end) f = some ev →
      frame_start < f ∧ f ≤ frame_end) ∧
    detect_z_crossings scenPos ["P"] 0 .both 0 5 = [(2, (1, "P")), (4, (2, "P"))] ∧
    detect_z_crossings scenPos ["P"] 0 .up 0 5 = [(2, (1, "P"))] ∧
    detect_z_crossings scenPos ["P"] 0 .down 0 5 = [(4, (2, "P"))] := by
  refine ⟨?_, ?_, ?_, ?_⟩
  · intro pos points threshold direction s e f ev h
    unfold detect_z_crossings detectLoop at h
    by_cases hse : s ≤ e
    · rw [frameList_cons s e hse, List.foldl_cons] at h
      have h0 : (processFrame pos points threshold direction
          { prevZ := fun _ => none, data := [], cursor := s } s).data = [] := by
        unfold processFrame
        rw [foldl_stepPoint_fresh pos threshold direction s points _
          (fun _ => Or.inl rfl)]
      refine detectLoop_data_range pos points threshold direction
        (fun g => s < g ∧ g ≤ e) (frameList (s + 1) e) _
        (fun f' hf' => ?_) (fun g v hv => ?_) f ev h
      · have := frameList_mem (s + 1) e f' hf'
        omega
      · rw [h0] at hv
        simp [lookupEvent] at hv
    · push_neg at hse
      rw [frameList_nil s e hse, List.foldl_nil] at h
      simp [lookupEvent] at h
  · simp [detect_z_crossings, detectLoop, frameList]
    norm_num [List.range_succ, processFrame, stepPoint, crossed, updateEvent,
      setEntry, scenPos, Int.toNat_ofNat, lookupEvent]
  · simp [detect_z_crossings, detectLoop, frameList]
    norm_num [List.range_succ, processFrame, stepPoint, crossed, updateEvent,
      setEntry, scenPos, Int.toNat_ofNat, lookupEvent]
  · simp [detect_z_crossings, detectLoop, frameList]
    norm_num [List.range_succ, processFrame, stepPoint, crossed, updateEvent,
      setEntry, scenPos, Int.toNat_ofNat, lookupEvent]

/-- Witness for C4: the scenario's frame-2 event is strictly after the
first sampled frame and inside the scanned range. -/
theorem detect_crossings_witness : (0 : Int) < 2 ∧ (2 : Int) ≤ 5 := by
  refine detect_crossings_spec.1 scenPos ["P"] 0 .both 0 5 2 (1, "P") ?_
  rw [detect_crossings_spec.2.1]
  simp [lookupEvent]

/-- C5: each frame retains at most one event (the recorded frame keys are
duplicate-free for every run), the recorded speed is `abs(current - prev)`,
and an existing event is replaced only by a strictly faster one: at equal
speeds the first point scanned wins (`tiePos`), a strictly faster later
point replaces (`fasterPos`), and a downward crossing records the absolute
delta (`scenPos`, frame 4). -/
theorem per_frame_max_event_spec :
    (∀ (pos : String → Int → ℚ) (points : List String) (threshold : ℚ)
        (direction : Direction) (frame_start frame_end : Int),
      ((detect_z_crossings pos points threshold direction frame_start
          frame_end).map Prod.fst).Nodup) ∧
    detect_z_crossings tiePos ["P", "Q"] 0 .both 0 1 = [(1, (2, "P"))] ∧
    detect_z_crossings fasterPos ["P", "Q"] 0 .both 0 1 = [(1, (3, "Q"))] ∧
    detect_z_crossings scenPos ["P"] 0 .both 3 5 = [(4, (2, "P"))] := by
  refine ⟨?_, ?_, ?_, ?_⟩
  · intro pos points threshold direction s e
    unfold detect_z_crossings detectLoop
    exact detectLoop_nodup pos points threshold direction (frameList s e) _ (by simp)
  · simp [detect_z_crossings, detectLoop, frameList]
    norm_num [List.range_succ, processFrame, stepPoint, crossed, updateEvent,
      setEntry, tiePos, Int.toNat_ofNat, lookupEvent,
      (show ¬("Q" : String) = "P" by decide), (show ¬("P" : String) = "Q" by decide)]
  · simp [detect_z_crossings, detectLoop, frameList]
    norm_num [List.range_succ, processFrame, stepPoint, crossed, updateEvent,
      setEntry, fasterPos, Int.toNat_ofNat, lookupEvent,
      (show ¬("Q" : String) = "P" by decide), (show ¬("P" : String) = "Q" by decide)]
  · simp [detect_z_crossings, detectLoop, frameList]
    norm_num [List.range_succ, processFrame, stepPoint, crossed, updateEvent,
      setEntry, scenPos, Int.toNat_ofNat, lookupEvent]

/-- C6: frame conversion truncates `((frame - frame_start) / blender_fps) *
resolve_fps` — truncation coincides with `floor` on the nonnegative inputs
the operator produces (crossing frames are ≥ `frame_start`); duration
conversion is `max 1 (int(dur_sec * resolve_fps))`, hence always ≥ 1; WAV
durations decode as `nframes / framerate`, everything else falls back to a
nonnegative duration, 1.0 by default. -/
theorem frame_and_duration_conversion_spec :
    (∀ (frame frame_start resolve_start : Int) (blender_fps resolve_fps : ℚ),
      0 < blender_fps → 0 < resolve_fps → frame_start ≤ frame →
      convert_blender_frame_to_resolve frame frame_start blender_fps resolve_start
          resolve_fps
        = resolve_start + ⌊((frame : ℚ) - (frame_start : ℚ)) / blender_fps * resolve_fps⌋) ∧
    (∀ dur_sec resolve_fps : ℚ, 0 ≤ dur_sec → 0 ≤ resolve_fps →
      resolve_duration_frames dur_sec resolve_fps = max 1 ⌊dur_sec * resolve_fps⌋) ∧
    (∀ dur_sec resolve_fps : ℚ, 1 ≤ resolve_duration_frames dur_sec resolve_fps) ∧
    (∀ w a, 0 ≤ get_audio_duration_seconds w a) ∧
    (∀ n r : Nat, r ≠ 0 → get_audio_duration_seconds (some (n, r)) none = (n : ℚ) / r) ∧
    get_audio_duration_seconds none none = 1 := by
  refine ⟨?_, ?_, ?_, ?_, ?_, rfl⟩
  · intro frame frame_start resolve_start bfps rfps hb hr hle
    have h0 : (0 : ℚ) ≤ ((frame : ℚ) - (frame_start : ℚ)) / bfps * rfps := by
      apply mul_nonneg (div_nonneg _ hb.le) hr.le
      have : (frame_start : ℚ) ≤ (frame : ℚ) := by exact_mod_cast hle
      linarith
    simp only [convert_blender_frame_to_resolve, ratTrunc]
    rw [if_neg (not_lt.2 h0)]
  · intro dur_sec rfps hd hr
    have h0 : (0 : ℚ) ≤ dur_sec * rfps := mul_nonneg hd hr
    simp only [resolve_duration_frames, ratTrunc]
    rw [if_neg (not_lt.2 h0)]
  · intro dur_sec rfps
    unfold resolve_duration_frames
    exact le_max_left 1 _
  · intro w a
    have haud : 0 ≤ audFallback a := by
      cases a with
      | none => norm_num [audFallback]
      | some l =>
          by_cases hl : l > 0
          · simp only [audFallback, if_pos hl]; exact le_of_lt hl
          · simp only [audFallback, if_neg hl]; norm_num
    cases w with
    | none => simpa [get_audio_duration_seconds] using haud
    | some p =>
        obtain ⟨n, r⟩ := p
        by_cases hr : r ≠ 0
        · simp only [get_audio_duration_seconds, if_pos hr]
          positivity
        · simp only [get_audio_duration_seconds, if_neg hr]
          exact haud
  · intro n r hr
    simp [get_audio_duration_seconds, hr]

/-- Witness for C6 at concrete input: converting frame 30 (scene start 0,
24 fps) to a Resolve timeline starting at 100 with 30 fps, and a 1.5 s clip
at 24 fps. -/
theorem frame_and_duration_conversion_witness :
    convert_blender_frame_to_resolve 30 0 24 100 30
        = 100 + ⌊((30 : ℚ) - (0 : ℚ)) / 24 * 30⌋ ∧
    resolve_duration_frames (3/2) 24 = max 1 ⌊(3/2 : ℚ) * 24⌋ ∧
    get_audio_duration_seconds (some (48000, 32000)) none = (48000 : ℚ) / 32000 := by
  refine ⟨?_, ?_, ?_⟩
  · exact frame_and_duration_conversion_spec.1 30 0 100 24 30 (by norm_num)
      (by norm_num) (by norm_num)
  · exact frame_and_duration_conversion_spec.2.1 (3/2) 24 (by norm_num) (by norm_num)
  · exact frame_and_duration_conversion_spec.2.2.2.2.1 48000 32000 (by norm_num)

/-- C7: identity resolution over the built lookups coincides, for every
catalog and query, with the spec-order tiers stated directly over the
registration-ordered catalog: exact resolved-path match, then exact
filename match, then stem match, then substring containment, first match
wins, first-registered wins inside a tier, `none` when every tier misses.
The concrete catalog (two clips sharing the name `a.wav`) exercises: the
path tier beating the name tier, the name and stem tiers returning the
first-registered clip, the substring tier, and overall failure. -/
theorem find_resolve_media_clip_refines :
    (∀ (realpathFn : String → String) (sound_path : String) (clips : List MediaClip),
      find_resolve_media_clip realpathFn sound_path (byPathOf clips)
          (byNameOf clips) (byStemOf clips)
        = findClipSpec realpathFn sound_path clips) ∧
    find_resolve_media_clip id "/y/a.wav" (byPathOf demoCatalog)
        (byNameOf demoCatalog) (byStemOf demoCatalog)
      = some ⟨"a.wav", "/y/a.wav"⟩ ∧
    find_resolve_media_clip id "/z/a.wav" (byPathOf demoCatalog)
        (byNameOf demoCatalog) (byStemOf demoCatalog)
      = some ⟨"a.wav", "/x/a.wav"⟩ ∧
    find_resolve_media_clip id "/z/a.flac" (byPathOf demoCatalog)
        (byNameOf demoCatalog) (byStemOf demoCatalog)
      = some ⟨"a.wav", "/x/a.wav"⟩ ∧
    find_resolve_media_clip id "/z/la.wav.bak" (byPathOf demoCatalog)
        (byNameOf demoCatalog) (byStemOf demoCatalog)
      = some ⟨"a.wav", "/x/a.wav"⟩ ∧
    find_resolve_media_clip id "/z/b.wav" (byPathOf demoCatalog)
        (byNameOf demoCatalog) (byStemOf demoCatalog)
      = none := by
  refine ⟨?_, by decide, by decide, by decide, by decide, by decide⟩
  intro realpathFn sound_path clips
  simp only [find_resolve_media_clip, findClipSpec]
  rw [byPathOf_lookup, byNameOf_lookup, byStemOf_lookup, byNameOf_find_substr]

/-- C8: `base_volume = volume_slowest + normalized_speed * (volume_fastest -
volume_slowest)`; with `randomness ≤ 0` the volume is exactly the base
volume, and with `randomness > 0` the sampled volume stays inside
`[base_volume * (1 - randomness), base_volume]` for any unit sample. -/
theorem volume_randomness_spec :
    (∀ base_volume randomness u : ℚ, randomness ≤ 0 →
      get_random_volume base_volume randomness u = base_volume) ∧
    (∀ volume_slowest volume_fastest ns randomness u : ℚ,
      0 ≤ volume_slowest → 0 ≤ volume_fastest → 0 ≤ ns → ns ≤ 1 →
      0 < randomness → randomness ≤ 1 → 0 ≤ u → u ≤ 1 →
      baseVolumeOf volume_slowest volume_fastest ns * (1 - randomness)
          ≤ get_random_volume (baseVolumeOf volume_slowest volume_fastest ns) randomness u ∧
        get_random_volume (baseVolumeOf volume_slowest volume_fastest ns) randomness u
          ≤ baseVolumeOf volume_slowest volume_fastest ns) := by
  constructor
  · intro base randomness u h
    unfold get_random_volume
    rw [if_pos h]
  · intro vs vf ns randomness u hvs hvf hns0 hns1 hr0 hr1 hu0 hu1
    have hB : 0 ≤ baseVolumeOf vs vf ns := by
      unfold baseVolumeOf; nlinarith
    set B := baseVolumeOf vs vf ns with hBdef
    have key : get_random_volume B randomness u
        = B * (1 - randomness) + (B - B * (1 - randomness)) * u := by
      simp only [get_random_volume, if_neg (not_le.2 hr0)]
    rw [key]
    constructor
    · nlinarith [mul_nonneg (mul_nonneg hB hr0.le) hu0]
    · nlinarith [mul_nonneg (mul_nonneg hB hr0.le) (sub_nonneg.2 hu1)]

/-- Witness for C8 at concrete input: `volume_slowest = 3/10`,
`volume_fastest = 1`, `normalized_speed = 1/2`, `randomness = 1/5`, unit
sample `1/2`. -/
theorem volume_randomness_witness :
    get_random_volume (baseVolumeOf (3/10) 1 (1/2)) 0 (1/2)
        = baseVolumeOf (3/10) 1 (1/2) ∧
    baseVolumeOf (3/10) 1 (1/2) * (1 - 1/5)
        ≤ get_random_volume (baseVolumeOf (3/10) 1 (1/2)) (1/5) (1/2) ∧
    get_random_volume (baseVolumeOf (3/10) 1 (1/2)) (1/5) (1/2)
        ≤ baseVolumeOf (3/10) 1 (1/2) := by
  refine ⟨volume_randomness_spec.1 _ 0 _ le_rfl, ?_, ?_⟩
  · exact (volume_randomness_spec.2 (3/10) 1 (1/2) (1/5) (1/2) (by norm_num)
      (by norm_num) (by norm_num) (by norm_num) (by norm_num) (by norm_num)
      (by norm_num) (by norm_num)).1
  · exact (volume_randomness_spec.2 (3/10) 1 (1/2) (1/5) (1/2) (by norm_num)
      (by norm_num) (by norm_num) (by norm_num) (by norm_num) (by norm_num)
      (by norm_num) (by norm_num)).2

/-- C10: the scan drives the scene cursor (after a nonempty scan the cursor
sits on the last scanned frame), and both operators return with the cursor
restored to `original_frame` on every exit path. -/
theorem cursor_restored_on_all_paths :
    (∀ (pos : String → Int → ℚ) (points : List String) (threshold : ℚ)
        (direction : Direction) (frame_start frame_end cursor0 : Int),
      frame_start ≤ frame_end →
      (detectLoop pos points threshold direction frame_start frame_end cursor0).cursor
        = frame_end) ∧
    (∀ (aOk sOk bOk pOk : Bool) (pos : String → Int → ℚ) (points : List String)
        (threshold : ℚ) (direction : Direction) (frame_start frame_end cursor0 : Int),
      (vse_add_sounds_run aOk sOk bOk pOk pos points threshold direction
          frame_start frame_end cursor0).2 = cursor0) ∧
    (∀ (aOk sOk bOk pOk rOk iOk : Bool) (pos : String → Int → ℚ)
        (points : List String) (threshold : ℚ) (direction : Direction)
        (frame_start frame_end cursor0 : Int),
      (vse_send_sounds_run aOk sOk bOk pOk rOk iOk pos points threshold direction
          frame_start frame_end cursor0).2 = cursor0) := by
  refine ⟨?_, ?_, ?_⟩
  · intro pos points threshold direction s e c0 h
    unfold detectLoop
    rw [foldl_processFrame_cursor]
    exact frameList_getLastD s e h c0
  · intro aOk sOk bOk pOk pos points threshold direction s e c0
    unfold vse_add_sounds_run
    dsimp only
    split_ifs <;> rfl
  · intro aOk sOk bOk pOk rOk iOk pos points threshold direction s e c0
    unfold vse_send_sounds_run
    dsimp only
    split_ifs <;> rfl

/-- Witness for C10 at concrete input: the scenario scan over frames 0–5
ends with the cursor on frame 5, and both operators return it to 3. -/
theorem cursor_restored_witness :
    (detectLoop scenPos ["P"] 0 .both 0 5 3).cursor = 5 ∧
    (vse_add_sounds_run true true true true scenPos ["P"] 0 .both 0 5 3).2 = 3 ∧
    (vse_send_sounds_run true true true true true true scenPos ["P"] 0 .both 0 5 3).2
      = 3 := by
  refine ⟨cursor_restored_on_all_paths.1 scenPos ["P"] 0 .both 0 5 3 (by norm_num),
    cursor_restored_on_all_paths.2.1 true true true true scenPos ["P"] 0 .both 0 5 3,
    cursor_restored_on_all_paths.2.2 true true true true true true scenPos ["P"] 0
      .both 0 5 3⟩

end MotionSounds
